import Mathlib

/-!
# ProofML: the argmax-of-one-ReLU-layer circuit

A shallow embedding of `Try/ProofML/main.go`: the circuit `ProveModelCircuit`, its
`Define` method and the JSON-to-variable conversion of `main`.

Field values are read as signed integers.  The constraint-system primitives the circuit
calls (`api.Add`, `api.Mul`, `api.Select`, `cmp.IsLess`, `api.AssertIsEqual`) belong to the
gnark backend, not to this repository; they are modelled below from the interface the
specification gives for them.  Every call is recorded in the `API` state, so that the
number of operations issued stays observable next to the values computed.
-/

namespace ProofML

/-! ## Go runtime and backend interface -/

/-- Go runtime panic raised by a slice index expression: `index out of range [index] with
length len`. -/
inductive Panic where
  | indexOutOfRange (index len : Nat)
  deriving DecidableEq, Repr

/-- Slice indexing `xs[i]`: the element, or the runtime panic when `i` is out of range. -/
def index {α : Type} (xs : List α) (i : Nat) : Except Panic α :=
  match xs[i]? with
  | some x => .ok x
  | none => .error (.indexOutOfRange i xs.length)

/-- Modelled from the spec: the state of the constraint-system capture interface (the gnark
`frontend.API`, which is not part of this repository).  It counts the calls of each
primitive and keeps whether every equality asserted so far holds for the witness. -/
structure API where
  nAdd : Nat
  nMul : Nat
  nSelect : Nat
  nIsLess : Nat
  nAssert : Nat
  satisfied : Bool
  deriving DecidableEq, Repr

/-- A fresh constraint system: nothing issued, nothing violated. -/
def API.empty : API := ⟨0, 0, 0, 0, 0, true⟩

/-- Modelled from the spec: `add(a,b)` of the capture interface, on signed integers. -/
def API.Add (api : API) (a b : Int) : Int × API :=
  (a + b, { api with nAdd := api.nAdd + 1 })

/-- Modelled from the spec: `mul(a,b)` of the capture interface, on signed integers. -/
def API.Mul (api : API) (a b : Int) : Int × API :=
  (a * b, { api with nMul := api.nMul + 1 })

/-- Modelled from the spec: `select(cond,a,b)` of the capture interface; `cond` is a
bool-like variable, `1` choosing `a` and anything else `b`. -/
def API.Select (api : API) (cond a b : Int) : Int × API :=
  (if cond = 1 then a else b, { api with nSelect := api.nSelect + 1 })

/-- Modelled from the spec: `isLess(a,b)` of the capture interface, read as `a < b` on
signed integers; the result is the bool-like variable `1` or `0`. -/
def cmp.IsLess (api : API) (a b : Int) : Int × API :=
  (if a < b then 1 else 0, { api with nIsLess := api.nIsLess + 1 })

/-- Modelled from the spec: `assertEqual(a,b)` of the capture interface.  `Define` hands it
the scalar `maxIdx` and the whole `Expected` slice; following the specification the slice is
read as one scalar class index, so the constraint holds exactly when the slice consists of
that single scalar and it equals `a`. -/
def API.AssertIsEqual (api : API) (a : Int) (b : List Int) : API :=
  { api with nAssert := api.nAssert + 1, satisfied := api.satisfied && decide (b = [a]) }

/-! ## The circuit -/

/-- The circuit structure `ProveModelCircuit`: secret weights `A` (layer, neuron, input) and
`Biases` (layer, neuron), public input `X` and public `Expected` slice. -/
structure ProveModelCircuit where
  A : List (List (List Int))
  Biases : List (List Int)
  X : List Int
  Expected : List Int
  deriving DecidableEq, Repr

/-- Inner loop of `Define` (lines 32-34) for neuron `i`: `n` iterations are left, `j` is the
loop variable and `out` the current value of `output[i]`. -/
def Define.innerLoop (c : ProveModelCircuit) (i : Nat) :
    Nat → Nat → Int → API → Except Panic (Int × API)
  | 0, _, out, api => .ok (out, api)
  | n + 1, j, out, api => do
    let A0 ← index c.A 0
    let row ← index A0 i
    let a ← index row j
    let x ← index c.X j
    let (m, api) := api.Mul a x
    let (s, api) := api.Add out m
    Define.innerLoop c i n (j + 1) s api

/-- Lines 31-34 of `Define` for neuron `i`: `output[i]` starts as `Biases[0][i]` and
accumulates `A[0][i][j] * X[j]` for `j` from `0` to `len(X) - 1`; the value returned is the
one `output[i]` holds just before the ReLU select. -/
def Define.affine (c : ProveModelCircuit) (i : Nat) (api : API) : Except Panic (Int × API) := do
  let B0 ← index c.Biases 0
  let b ← index B0 i
  Define.innerLoop c i c.X.length 0 b api

/-- Outer loop of `Define` (lines 30-37): `n` iterations are left, `i` is the loop variable.
The slice `output` is allocated with `numberNeurons` slots; slot `i` is written in
iteration `i` only and read only afterwards, so the loop threads the slots written so far. -/
def Define.layerLoop (c : ProveModelCircuit) :
    Nat → Nat → List Int → API → Except Panic (List Int × API)
  | 0, _, output, api => .ok (output, api)
  | n + 1, i, output, api => do
    let (pre, api) ← Define.affine c i api
    let (lt, api) := cmp.IsLess api pre 0
    let (r, api) := api.Select lt 0 pre
    Define.layerLoop c n (i + 1) (output ++ [r]) api

/-- Lines 24-37 of `Define`: the neuron count `len(A[0])` and the first loop; the result is
the slice `output` after the loop. -/
def Define.layer (c : ProveModelCircuit) (api : API) : Except Panic (List Int × API) := do
  let A0 ← index c.A 0
  let numberNeurons := A0.length
  Define.layerLoop c numberNeurons 0 [] api

/-- Argmax loop of `Define` (lines 42-46): `n` iterations are left, `i` is the loop
variable. -/
def Define.argmaxLoop (output : List Int) :
    Nat → Nat → Int → Int → API → Except Panic (Int × Int × API)
  | 0, _, maxVal, maxIdx, api => .ok (maxVal, maxIdx, api)
  | n + 1, i, maxVal, maxIdx, api => do
    let oi ← index output i
    let (isLess, api) := cmp.IsLess api maxVal oi
    let (maxVal, api) := api.Select isLess oi maxVal
    let (maxIdx, api) := api.Select isLess (i : Int) maxIdx
    Define.argmaxLoop output n (i + 1) maxVal maxIdx api

/-- Lines 40-46 of `Define` on a slice `output` of `numberNeurons = len(output)` values:
`maxVal := output[0]`, `maxIdx := 0`, then the loop for `i` from `1`.  Returns
`(maxVal, maxIdx)` and the API state. -/
def Define.argmax (output : List Int) (api : API) : Except Panic (Int × Int × API) := do
  let maxVal ← index output 0
  Define.argmaxLoop output (output.length - 1) 1 maxVal 0 api

/-- What a run of `Define` that does not panic leaves behind: the slice `output`, the
variables `maxVal` and `maxIdx`, the API state after the final assertion, and the returned
Go `error` (`none` for `nil`). -/
structure DefineResult where
  output : List Int
  maxVal : Int
  maxIdx : Int
  api : API
  err : Option String
  deriving DecidableEq, Repr

/-- The method `ProveModelCircuit.Define`. -/
def Define (c : ProveModelCircuit) (api : API) : Except Panic DefineResult := do
  let (output, api) ← Define.layer c api
  let (maxVal, maxIdx, api) ← Define.argmax output api
  let api := api.AssertIsEqual maxIdx c.Expected
  .ok { output := output, maxVal := maxVal, maxIdx := maxIdx, api := api, err := none }

/-! ## The conversion in `main` -/

/-- Lines 96-105 of `main`: the loaded `weights` are copied leaf by leaf into `A`, a slice
of the same length being made at every level (`len(weightsData.Weights)`, `len(layer)`,
`len(neuron)`); `frontend.Variable(weight)` wraps the float unchanged.  `F` is the type of
the loaded numbers. -/
def main.convertWeights {F : Type} (weights : List (List (List F))) : List (List (List F)) :=
  weights.map fun layer => layer.map fun neuron => neuron.map fun weight => weight

/-- Lines 107-113 of `main`: the loaded `biases` are copied leaf by leaf into `Biases`. -/
def main.convertBiases {F : Type} (biases : List (List F)) : List (List F) :=
  biases.map fun biasLayer => biasLayer.map fun bias => bias

/-! ## The quantities the specification names -/

/-- The weighted sum `Σ_j row[j] * X[j]` over `j < len(X)`. -/
def dot (row X : List Int) : Int :=
  ((List.range X.length).map fun j => row.getD j 0 * X.getD j 0).sum

/-- The pre-activation `pre[i] = Biases[0][i] + Σ_j A[0][i][j] * X[j]` of neuron `i`. -/
def pre (c : ProveModelCircuit) (i : Nat) : Int :=
  (c.Biases.getD 0 []).getD i 0 + dot ((c.A.getD 0 []).getD i []) c.X

/-- ReLU, `f(x) = max(0, x)`. -/
def relu (v : Int) : Int := max 0 v

/-- The number of neurons of layer 0, `len(A[0])`. -/
def numberNeurons (c : ProveModelCircuit) : Nat := (c.A.getD 0 []).length

/-- Well-formed shapes of a single-layer model and its input: layer 0 exists in `A` and in
`Biases`, every row of `A[0]` has length `len(X)`, and `len(Biases[0]) = len(A[0])`. -/
def WellFormed (c : ProveModelCircuit) : Prop :=
  c.A ≠ [] ∧ c.Biases ≠ [] ∧ (∀ row ∈ c.A.getD 0 [], row.length = c.X.length) ∧
    (c.Biases.getD 0 []).length = (c.A.getD 0 []).length

instance (c : ProveModelCircuit) : Decidable (WellFormed c) := by
  unfold WellFormed; infer_instance

/-- Shapes under which no index of the first loop leaves its slice: layer 0 exists in `A`
and in `Biases`, `Biases[0]` has an entry for every neuron and every row of `A[0]` an entry
for every input. -/
def Indexable (c : ProveModelCircuit) : Prop :=
  c.A ≠ [] ∧ c.Biases ≠ [] ∧ (∀ row ∈ c.A.getD 0 [], c.X.length ≤ row.length) ∧
    (c.A.getD 0 []).length ≤ (c.Biases.getD 0 []).length

instance (c : ProveModelCircuit) : Decidable (Indexable c) := by
  unfold Indexable; infer_instance

/-- Index `k` is the least index below `n` at which `f` takes its maximum over `0..n-1`. -/
def IsLeastArgmax (f : Nat → Int) (n k : Nat) : Prop :=
  k < n ∧ (∀ j, j < n → f j ≤ f k) ∧ (∀ j, j < k → f j < f k)

/-- The API state after `a` further additions, `m` multiplications, `s` selects and `l`
comparisons. -/
def API.issued (api : API) (a m s l : Nat) : API :=
  ⟨api.nAdd + a, api.nMul + m, api.nSelect + s, api.nIsLess + l, api.nAssert, api.satisfied⟩

/-- Loop invariant of the argmax loop once `values[0..i-1]` have been looked at: `maxIdx` is
the least index of the maximum of that part, and `maxVal` the value there. -/
def ArgmaxInv (values : List Int) (i : Nat) (maxVal maxIdx : Int) : Prop :=
  ∃ k : Nat, maxIdx = (k : Int) ∧ IsLeastArgmax (fun j => values.getD j 0) i k ∧
    values.getD k 0 = maxVal

/-- Spec 4.2, `applyLayer(weights, biases, input)`: one output per neuron `i`, the ReLU of
`biases[i] + Σ_j weights[i][j] * input[j]`. -/
def applyLayer (weights : List (List Int)) (biases input : List Int) : List Int :=
  (List.range weights.length).map fun i => relu (biases.getD i 0 + dot (weights.getD i []) input)

/-- Spec 4.4, the chaining the Circuit Assembler is described with: the layer gadget is
applied to each layer in sequence, the output of layer `k` being the input of layer `k+1`;
the result is the output of the last layer. -/
def chainLayers : List (List (List Int)) → List (List Int) → List Int → List Int
  | weights :: A, biases :: Biases, input => chainLayers A Biases (applyLayer weights biases input)
  | _, _, input => input

/-- The nested shape of a weights document: the length of every neuron row, per layer. -/
def shape {F : Type} (weights : List (List (List F))) : List (List Nat) :=
  weights.map fun layer => layer.map List.length

/-- Some layer of the document has two neuron rows of different lengths. -/
def Ragged {F : Type} (weights : List (List (List F))) : Prop :=
  ∃ layer ∈ weights, ∃ r1 ∈ layer, ∃ r2 ∈ layer, r1.length ≠ r2.length

/-- Two circuits agree on everything `Define` can read: both hold a layer 0 in `A` and in
`Biases`, they have the same `X` and `Expected`, the same number of neurons, the same
entries of `Biases[0]` below the neuron count, and in every row of `A[0]` the same entries
below `len(X)`.  Columns from `len(X)` on, bias entries from the neuron count on and the
layers `A[k]`, `Biases[k]` for `k >= 1` are left free. -/
def AgreeOnUsed (c1 c2 : ProveModelCircuit) : Prop :=
  c1.A ≠ [] ∧ c2.A ≠ [] ∧ c1.Biases ≠ [] ∧ c2.Biases ≠ [] ∧
    c1.X = c2.X ∧ c1.Expected = c2.Expected ∧ numberNeurons c1 = numberNeurons c2 ∧
    (c1.Biases.getD 0 []).take (numberNeurons c1) =
      (c2.Biases.getD 0 []).take (numberNeurons c1) ∧
    ∀ i, i < numberNeurons c1 →
      ((c1.A.getD 0 []).getD i []).take c1.X.length =
        ((c2.A.getD 0 []).getD i []).take c1.X.length

instance (c1 c2 : ProveModelCircuit) : Decidable (AgreeOnUsed c1 c2) := by
  unfold AgreeOnUsed; infer_instance

/-! ## Sample inputs -/

/-- The single-layer model of the end-to-end scenario: weights `[[1,0],[0,1]]`, biases
`[0,0]`, input `[3,-1]`, with the given expected output. -/
def scenarioCircuit (expected : Int) : ProveModelCircuit :=
  ⟨[[[1, 0], [0, 1]]], [[0, 0]], [3, -1], [expected]⟩

/-- A three-neuron layer over two inputs with a tie between the last two neurons:
pre-activations `[-4, 7, 7]`. -/
def tieCircuit : ProveModelCircuit :=
  ⟨[[[1, 2], [3, -1], [0, -7]]], [[-2, 0, 0]], [2, -1], [1]⟩

/-- A circuit whose layer 0 has no neuron. -/
def emptyLayerCircuit : ProveModelCircuit := ⟨[[]], [[]], [3, -1], [0]⟩

/-- A dimensionally consistent two-layer model: layer 0 is the identity on two inputs and
layer 1 swaps them. -/
def twoLayerCircuit : ProveModelCircuit :=
  ⟨[[[1, 0], [0, 1]], [[0, 1], [1, 0]]], [[0, 0], [0, 0]], [3, 0], [0]⟩

/-- A weights document with one layer whose two neuron rows have lengths 3 and 2. -/
def raggedWeights : List (List (List Float)) := [[[1.0, 2.0, 3.0], [4.0, 5.0]]]

/-- The scenario circuit with surplus data: a third column in every row of `A[0]`, a third
entry in `Biases[0]`, and a second layer in `A` and in `Biases`. -/
def surplusCircuit : ProveModelCircuit :=
  ⟨[[[1, 0, 99], [0, 1, 98]], [[7]]], [[0, 0, 55], [1]], [3, -1], [0]⟩

/-- A two-neuron layer whose pre-activations `[-2, -1]` are both negative, the larger one
belonging to neuron 1. -/
def collapseCircuit : ProveModelCircuit :=
  ⟨[[[1, 0], [0, 1]]], [[-5, 0]], [3, -1], [0]⟩

/-! ## Basic facts -/

theorem index_eq_ok {α : Type} {xs : List α} {i : Nat} {x : α} (h : xs[i]? = some x) :
    index xs i = .ok x := by
  simp [index, h]

theorem index_lt {α : Type} (xs : List α) (i : Nat) (d : α) (h : i < xs.length) :
    index xs i = .ok (xs.getD i d) := by
  apply index_eq_ok
  simp [List.getD, List.getElem?_eq_getElem h]

theorem API.issued_zero (api : API) : api.issued 0 0 0 0 = api := by
  cases api; simp [API.issued]

theorem API.issued_issued (api : API) (a m s l a2 m2 s2 l2 : Nat) :
    (api.issued a m s l).issued a2 m2 s2 l2 = api.issued (a + a2) (m + m2) (s + s2) (l + l2) := by
  simp [API.issued, Nat.add_assoc]

theorem relu_eq_ite (v : Int) : relu v = if 0 ≤ v then v else 0 := by
  unfold relu
  by_cases h : 0 ≤ v
  · simp [h]
  · simp [h]; omega

theorem relu_nonneg (v : Int) : 0 ≤ relu v := le_max_left 0 v

theorem relu_select (api : API) (v : Int) :
    ((cmp.IsLess api v 0).2.Select (cmp.IsLess api v 0).1 0 v) = (relu v, api.issued 0 0 1 1) := by
  unfold cmp.IsLess API.Select relu API.issued
  by_cases h : v < 0
  · simp [h]; omega
  · simp [h]; omega

/-! ## The first loop -/

theorem innerLoop_eq (c : ProveModelCircuit) (A0 : List (List Int)) (rest : List (List (List Int)))
    (row : List Int) (i : Nat) (hA : c.A = A0 :: rest) (hrow : A0[i]? = some row) :
    ∀ (n j : Nat) (out : Int) (api : API), j + n ≤ row.length → j + n ≤ c.X.length →
      Define.innerLoop c i n j out api =
        .ok (out + ((List.range n).map fun k => row.getD (j + k) 0 * c.X.getD (j + k) 0).sum,
          api.issued n n 0 0) := by
  intro n
  induction n with
  | zero => intro j out api _ _; simp [Define.innerLoop, API.issued_zero]
  | succ n ih =>
    intro j out api h1 h2
    have e1 : index c.A 0 = .ok A0 := index_eq_ok (by simp [hA])
    have e2 : index A0 i = .ok row := index_eq_ok hrow
    have e3 : index row j = .ok (row.getD j 0) := index_lt _ _ _ (by omega)
    have e4 : index c.X j = .ok (c.X.getD j 0) := index_lt _ _ _ (by omega)
    simp only [Define.innerLoop, e1, e2, e3, e4, bind, Except.bind, API.Mul, API.Add]
    rw [ih (j + 1) _ _ (by omega) (by omega)]
    simp only [List.range_succ_eq_map, List.map_cons, List.sum_cons, List.map_map, API.issued]
    congr 2
    · simp only [Nat.add_zero, Function.comp_def, Nat.succ_eq_add_one]
      have : ∀ k, j + 1 + k = j + (k + 1) := by intro k; omega
      simp only [this]
      ring
    · simp; omega

theorem affine_eq (c : ProveModelCircuit) (h : Indexable c) (i : Nat)
    (hi : i < numberNeurons c) (api : API) :
    Define.affine c i api = .ok (pre c i, api.issued c.X.length c.X.length 0 0) := by
  obtain ⟨hA, hB, hrows, hlen⟩ := h
  obtain ⟨A0, rest, hA0⟩ := List.exists_cons_of_ne_nil hA
  obtain ⟨B0, restB, hB0⟩ := List.exists_cons_of_ne_nil hB
  simp only [numberNeurons, hA0, hB0, List.getD_cons_zero] at hi hrows hlen
  have hrow : A0[i]? = some (A0.getD i []) := by
    simp [List.getD, List.getElem?_eq_getElem hi]
  have hmem : A0.getD i [] ∈ A0 := List.getElem?_mem hrow
  have e1 : index c.Biases 0 = .ok B0 := index_eq_ok (by simp [hB0])
  have e2 : index B0 i = .ok (B0.getD i 0) := index_lt _ _ _ (by omega)
  simp only [Define.affine, e1, e2, bind, Except.bind]
  rw [innerLoop_eq c A0 rest _ i hA0 hrow _ _ _ _ (by have := hrows _ hmem; omega) (by omega)]
  simp [pre, dot, hA0, hB0]

theorem layerLoop_eq (c : ProveModelCircuit) (h : Indexable c) :
    ∀ (n i : Nat) (output : List Int) (api : API), i + n ≤ numberNeurons c →
      Define.layerLoop c n i output api =
        .ok (output ++ (List.range n).map (fun k => relu (pre c (i + k))),
          api.issued (n * c.X.length) (n * c.X.length) n n) := by
  intro n
  induction n with
  | zero => intro i output api _; simp [Define.layerLoop, API.issued_zero]
  | succ n ih =>
    intro i output api hn
    simp only [Define.layerLoop, affine_eq c h i (by omega), bind, Except.bind]
    rw [relu_select, ih (i + 1) _ _ (by omega), API.issued_issued, API.issued_issued]
    simp only [List.range_succ_eq_map, List.map_cons, List.map_map, List.append_assoc,
      List.singleton_append, Nat.add_zero, Function.comp_def, Nat.succ_eq_add_one]
    have e : ∀ k, i + 1 + k = i + (k + 1) := by intro k; omega
    simp only [e]
    congr 3 <;> ring

theorem layer_eq (c : ProveModelCircuit) (h : Indexable c) (api : API) :
    Define.layer c api =
      .ok ((List.range (numberNeurons c)).map (fun i => relu (pre c i)),
        api.issued (numberNeurons c * c.X.length) (numberNeurons c * c.X.length)
          (numberNeurons c) (numberNeurons c)) := by
  obtain ⟨A0, rest, hA0⟩ := List.exists_cons_of_ne_nil h.1
  have e1 : index c.A 0 = .ok A0 := index_eq_ok (by simp [hA0])
  have hn : numberNeurons c = A0.length := by simp [numberNeurons, hA0]
  simp only [Define.layer, e1, bind, Except.bind]
  rw [← hn, layerLoop_eq c h _ 0 [] api (by omega)]
  simp

theorem WellFormed.indexable {c : ProveModelCircuit} (h : WellFormed c) : Indexable c :=
  ⟨h.1, h.2.1, fun row hr => le_of_eq (h.2.2.1 row hr).symm, le_of_eq h.2.2.2.symm⟩

/-! ## The argmax loop -/

theorem ArgmaxInv.step {values : List Int} {i : Nat} {maxVal maxIdx : Int}
    (h : ArgmaxInv values i maxVal maxIdx) :
    ArgmaxInv values (i + 1)
      (if (if maxVal < values.getD i 0 then (1 : Int) else 0) = 1 then values.getD i 0 else maxVal)
      (if (if maxVal < values.getD i 0 then (1 : Int) else 0) = 1 then (i : Int) else maxIdx) := by
  obtain ⟨k, hk, ⟨hki, hmax, hleast⟩, hval⟩ := h
  simp only at hmax hleast
  by_cases hlt : maxVal < values.getD i 0
  · simp only [hlt, if_true]
    refine ⟨i, rfl, ⟨by omega, ?_, ?_⟩, rfl⟩
    · intro j hj
      by_cases hji : j = i
      · subst hji; exact le_refl _
      · have := hmax j (by omega); simp only; omega
    · intro j hj
      have := hmax j hj; simp only; omega
  · have h0 : ¬ ((0 : Int) = 1) := by decide
    simp only [hlt, if_false, h0]
    refine ⟨k, hk, ⟨by omega, ?_, hleast⟩, hval⟩
    intro j hj
    by_cases hji : j = i
    · subst hji; simp only; omega
    · exact hmax j (by omega)

theorem argmaxLoop_eq (values : List Int) :
    ∀ (n i : Nat) (maxVal maxIdx : Int) (api : API), i + n = values.length →
      ArgmaxInv values i maxVal maxIdx →
      ∃ mv mi, Define.argmaxLoop values n i maxVal maxIdx api =
          .ok (mv, mi, api.issued 0 0 (2 * n) n) ∧ ArgmaxInv values (i + n) mv mi := by
  intro n
  induction n with
  | zero => intro i mv mi api _ hinv; exact ⟨mv, mi, by simp [Define.argmaxLoop, API.issued_zero], hinv⟩
  | succ n ih =>
    intro i mv mi api hn hinv
    have e1 : index values i = .ok (values.getD i 0) := index_lt _ _ _ (by omega)
    obtain ⟨mv2, mi2, heq, hinv2⟩ := ih (i + 1) _ _
      ((api.issued 0 0 0 1).issued 0 0 2 0) (by omega) hinv.step
    refine ⟨mv2, mi2, ?_, by rw [← Nat.add_assoc i n 1, Nat.add_right_comm]; exact hinv2⟩
    simp only [Define.argmaxLoop, e1, bind, Except.bind, cmp.IsLess, API.Select]
    have e2 : ∀ a : API, (⟨a.nAdd, a.nMul, a.nSelect + 1 + 1, a.nIsLess + 1, a.nAssert,
        a.satisfied⟩ : API) = (a.issued 0 0 0 1).issued 0 0 2 0 := by
      intro a; simp [API.issued]
    rw [e2, heq, API.issued_issued, API.issued_issued]
    congr 4 <;> omega

theorem argmax_eq (values : List Int) (hne : values ≠ []) (api : API) :
    ∃ (mv : Int) (k : Nat), Define.argmax values api =
        .ok (mv, (k : Int), api.issued 0 0 (2 * (values.length - 1)) (values.length - 1)) ∧
      IsLeastArgmax (fun j => values.getD j 0) values.length k ∧ values.getD k 0 = mv := by
  have hpos : 0 < values.length := List.length_pos.mpr hne
  have e1 : index values 0 = .ok (values.getD 0 0) := index_lt _ _ _ hpos
  have hinv : ArgmaxInv values 1 (values.getD 0 0) 0 :=
    ⟨0, rfl, ⟨by omega, fun j hj => by have : j = 0 := by omega
                                       subst this; exact le_refl _, fun j hj => by omega⟩, rfl⟩
  obtain ⟨mv, mi, heq, k, hk, hleast, hval⟩ :=
    argmaxLoop_eq values (values.length - 1) 1 _ _ api (by omega) hinv
  refine ⟨mv, k, ?_, ?_, hval⟩
  · simp only [Define.argmax, e1, bind, Except.bind]
    rw [heq, hk]
  · have : 1 + (values.length - 1) = values.length := by omega
    rw [this] at hleast; exact hleast

/-! ## The whole of `Define` -/

theorem IsLeastArgmax.congr {f g : Nat → Int} {n k : Nat} (hfg : ∀ j, j < n → f j = g j)
    (h : IsLeastArgmax f n k) : IsLeastArgmax g n k := by
  obtain ⟨hk, hmax, hleast⟩ := h
  refine ⟨hk, fun j hj => ?_, fun j hj => ?_⟩
  · rw [← hfg j hj, ← hfg k hk]; exact hmax j hj
  · rw [← hfg j (by omega), ← hfg k hk]; exact hleast j hj

theorem IsLeastArgmax.unique {f : Nat → Int} {n k k2 : Nat} (h : IsLeastArgmax f n k)
    (h2 : IsLeastArgmax f n k2) : k = k2 := by
  obtain ⟨hk, hmax, hleast⟩ := h
  obtain ⟨hk2, hmax2, hleast2⟩ := h2
  rcases Nat.lt_trichotomy k k2 with hlt | heq | hgt
  · have := hleast2 k hlt; have := hmax2 k hk; have := hmax k2 hk2; omega
  · exact heq
  · have := hleast k2 hgt; have := hmax k2 hk2; have := hmax2 k hk; omega

theorem getD_map_range (f : Nat → Int) (n j : Nat) (hj : j < n) :
    ((List.range n).map f).getD j 0 = f j := by
  simp [List.getD, List.getElem?_map, List.getElem?_range hj]

theorem Define_eq (c : ProveModelCircuit) (h : Indexable c) (hn : 0 < numberNeurons c)
    (api : API) :
    ∃ k : Nat, IsLeastArgmax (fun i => relu (pre c i)) (numberNeurons c) k ∧
      Define c api = .ok
        { output := (List.range (numberNeurons c)).map (fun i => relu (pre c i))
          maxVal := relu (pre c k)
          maxIdx := (k : Int)
          api := ((api.issued (numberNeurons c * c.X.length) (numberNeurons c * c.X.length)
            (numberNeurons c) (numberNeurons c)).issued 0 0 (2 * (numberNeurons c - 1))
            (numberNeurons c - 1)).AssertIsEqual (k : Int) c.Expected
          err := none } := by
  have hne : (List.range (numberNeurons c)).map (fun i => relu (pre c i)) ≠ [] := by
    intro h0
    have := congrArg List.length h0
    simp at this; omega
  obtain ⟨mv, k, heq, hleast, hval⟩ := argmax_eq _ hne
    (api.issued (numberNeurons c * c.X.length) (numberNeurons c * c.X.length)
      (numberNeurons c) (numberNeurons c))
  simp only [List.length_map, List.length_range] at heq hleast
  have hleast2 : IsLeastArgmax (fun i => relu (pre c i)) (numberNeurons c) k :=
    hleast.congr (fun j hj => getD_map_range _ _ j hj)
  refine ⟨k, hleast2, ?_⟩
  rw [getD_map_range _ _ k hleast.1] at hval
  simp only [Define, layer_eq c h api, bind, Except.bind, heq, hval]

/-! ## Independence from surplus data -/

theorem index_take {α : Type} (xs : List α) (m j : Nat) (hj : j < m) :
    index (xs.take m) j = index xs j := by
  unfold index
  rw [List.getElem?_take_of_lt hj]
  cases h : xs[j]? with
  | some x => rfl
  | none =>
    have hlen : xs.length ≤ j := List.getElem?_eq_none_iff.mp h
    simp only [List.length_take]
    rw [Nat.min_eq_right (by omega)]

theorem index_congr_take {α : Type} (xs ys : List α) (m j : Nat) (hj : j < m)
    (h : xs.take m = ys.take m) : index xs j = index ys j := by
  rw [← index_take xs m j hj, h, index_take ys m j hj]

theorem innerLoop_congr (c1 c2 : ProveModelCircuit) (h : AgreeOnUsed c1 c2) (i : Nat)
    (hi : i < numberNeurons c1) :
    ∀ (n j : Nat) (out : Int) (api : API), j + n ≤ c1.X.length →
      Define.innerLoop c1 i n j out api = Define.innerLoop c2 i n j out api := by
  obtain ⟨hA1, hA2, _, _, hX, _, hN, _, hrows⟩ := h
  obtain ⟨A1, rest1, hA1⟩ := List.exists_cons_of_ne_nil hA1
  obtain ⟨A2, rest2, hA2⟩ := List.exists_cons_of_ne_nil hA2
  simp only [numberNeurons, hA1, hA2, List.getD_cons_zero] at hi hN hrows
  have e1 : index c1.A 0 = .ok A1 := index_eq_ok (by simp [hA1])
  have e2 : index c2.A 0 = .ok A2 := index_eq_ok (by simp [hA2])
  have e3 : index A1 i = .ok (A1.getD i []) := index_lt _ _ _ hi
  have e4 : index A2 i = .ok (A2.getD i []) := index_lt _ _ _ (by omega)
  intro n
  induction n with
  | zero => intro j out api _; rfl
  | succ n ih =>
    intro j out api hj
    have e5 : index (A1.getD i []) j = index (A2.getD i []) j :=
      index_congr_take _ _ c1.X.length j (by omega) (hrows i hi)
    have ih2 : ∀ (out : Int) (api : API),
        Define.innerLoop c1 i n (j + 1) out api = Define.innerLoop c2 i n (j + 1) out api :=
      fun out api => ih (j + 1) out api (by omega)
    simp only [Define.innerLoop, e1, e2, e3, e4, e5, ← hX, ih2, bind, Except.bind]

theorem affine_congr (c1 c2 : ProveModelCircuit) (h : AgreeOnUsed c1 c2) (i : Nat)
    (hi : i < numberNeurons c1) (api : API) :
    Define.affine c1 i api = Define.affine c2 i api := by
  have hinner := innerLoop_congr c1 c2 h i hi
  obtain ⟨_, _, hB1, hB2, hX, _, _, hB, _⟩ := h
  obtain ⟨B1, restB1, hB1⟩ := List.exists_cons_of_ne_nil hB1
  obtain ⟨B2, restB2, hB2⟩ := List.exists_cons_of_ne_nil hB2
  simp only [hB1, hB2, List.getD_cons_zero] at hB
  have e1 : index c1.Biases 0 = .ok B1 := index_eq_ok (by simp [hB1])
  have e2 : index c2.Biases 0 = .ok B2 := index_eq_ok (by simp [hB2])
  have e3 : index B1 i = index B2 i := index_congr_take _ _ _ i hi hB
  have e4 : ∀ (b : Int), Define.innerLoop c1 i c1.X.length 0 b api =
      Define.innerLoop c2 i c1.X.length 0 b api :=
    fun b => hinner _ 0 b api (by omega)
  simp only [Define.affine, e1, e2, e3, e4, ← hX, bind, Except.bind]

theorem layerLoop_congr (c1 c2 : ProveModelCircuit) (h : AgreeOnUsed c1 c2) :
    ∀ (n i : Nat) (output : List Int) (api : API), i + n ≤ numberNeurons c1 →
      Define.layerLoop c1 n i output api = Define.layerLoop c2 n i output api := by
  intro n
  induction n with
  | zero => intro i output api _; rfl
  | succ n ih =>
    intro i output api hi
    have ih2 : ∀ (output : List Int) (api : API),
        Define.layerLoop c1 n (i + 1) output api = Define.layerLoop c2 n (i + 1) output api :=
      fun output api => ih (i + 1) output api (by omega)
    simp only [Define.layerLoop, affine_congr c1 c2 h i (by omega), ih2, bind, Except.bind]

theorem Define_congr (c1 c2 : ProveModelCircuit) (h : AgreeOnUsed c1 c2) (api : API) :
    Define c1 api = Define c2 api := by
  have hloop := layerLoop_congr c1 c2 h
  obtain ⟨hA1, hA2, _, _, _, hE, hN, _, _⟩ := h
  obtain ⟨A1, rest1, hA1⟩ := List.exists_cons_of_ne_nil hA1
  obtain ⟨A2, rest2, hA2⟩ := List.exists_cons_of_ne_nil hA2
  have e1 : index c1.A 0 = .ok A1 := index_eq_ok (by simp [hA1])
  have e2 : index c2.A 0 = .ok A2 := index_eq_ok (by simp [hA2])
  have hN1 : numberNeurons c1 = A1.length := by simp [numberNeurons, hA1]
  have hN2 : numberNeurons c2 = A2.length := by simp [numberNeurons, hA2]
  have hlayer : Define.layer c1 api = Define.layer c2 api := by
    simp only [Define.layer, e1, e2, bind, Except.bind]
    rw [← hN1, ← hN2, ← hN]
    exact hloop _ 0 [] api (by omega)
  simp only [Define, hlayer, hE]

/-! ## Claims -/

/-- C1 (circuit acceptance): for a single-layer model with at least one neuron and
well-formed shapes, `Define` runs to its final assertion, and that assertion holds if and
only if the scalar `Expected` is the least index `k` maximising
`max(0, Biases[0][k] + Σ_j A[0][k][j] * X[j])`. -/
theorem Define_accepts_iff_expected_is_argmax (c : ProveModelCircuit) (e : Int)
    (hwf : WellFormed c) (hn : 0 < numberNeurons c) (hE : c.Expected = [e]) :
    ∃ r, Define c API.empty = .ok r ∧
      (r.api.satisfied = true ↔
        ∃ k : Nat, e = (k : Int) ∧
          IsLeastArgmax (fun i => max 0 (pre c i)) (numberNeurons c) k) := by
  obtain ⟨k, hleast, heq⟩ := Define_eq c hwf.indexable hn API.empty
  refine ⟨_, heq, ?_⟩
  simp only [API.AssertIsEqual, API.issued, API.empty, hE, Bool.true_and, decide_eq_true_eq,
    List.cons.injEq, and_true]
  constructor
  · intro he
    exact ⟨k, he, hleast⟩
  · rintro ⟨k2, he, hleast2⟩
    have : k = k2 := hleast.unique hleast2
    rw [he, this]

theorem Define_accepts_iff_expected_is_argmax_witness :
    WellFormed tieCircuit ∧ 0 < numberNeurons tieCircuit ∧ tieCircuit.Expected = [1] ∧
      ∃ r, Define tieCircuit API.empty = .ok r ∧
        (r.api.satisfied = true ↔
          ∃ k : Nat, (1 : Int) = (k : Int) ∧
            IsLeastArgmax (fun i => max 0 (pre tieCircuit i)) (numberNeurons tieCircuit) k) :=
  ⟨by decide, by decide, rfl,
    Define_accepts_iff_expected_is_argmax tieCircuit 1 (by decide) (by decide) rfl⟩

/-- C2 (affine-ReLU layer): for a well-formed layer and input, the first loop of `Define`
completes, and for every neuron `i` the slot `output[i]` then holds `pre[i]` if
`pre[i] >= 0` and `0` otherwise, where
`pre[i] = Biases[0][i] + Σ_{j < len(X)} A[0][i][j] * X[j]`. -/
theorem layer_output_is_relu_of_pre (c : ProveModelCircuit) (api : API) (hwf : WellFormed c) :
    ∃ output api2, Define.layer c api = .ok (output, api2) ∧
      ∀ i, i < numberNeurons c →
        output[i]? = some (if 0 ≤ pre c i then pre c i else 0) := by
  refine ⟨_, _, layer_eq c hwf.indexable api, fun i hi => ?_⟩
  simp only [List.getElem?_map, List.getElem?_range hi, Option.map_some', relu_eq_ite]

theorem layer_output_is_relu_of_pre_witness :
    WellFormed tieCircuit ∧
      ∃ output api2, Define.layer tieCircuit API.empty = .ok (output, api2) ∧
        ∀ i, i < numberNeurons tieCircuit →
          output[i]? = some (if 0 ≤ pre tieCircuit i then pre tieCircuit i else 0) :=
  ⟨by decide, layer_output_is_relu_of_pre tieCircuit API.empty (by decide)⟩

/-- C3 (argmax correctness): on every non-empty vector the argmax fold of `Define` returns
an index `maxIdx` with `0 <= maxIdx < n` and a value `maxVal` that is the maximum of the
vector (an element of it that no element exceeds), with `values[maxIdx] = maxVal`; when one
index holds a value strictly above all others, `maxIdx` is that index. -/
theorem argmax_correct (values : List Int) (api : API) (hne : values ≠ []) :
    ∃ maxVal maxIdx api2, Define.argmax values api = .ok (maxVal, maxIdx, api2) ∧
      0 ≤ maxIdx ∧ maxIdx < (values.length : Int) ∧
      maxVal ∈ values ∧ (∀ v ∈ values, v ≤ maxVal) ∧
      values[maxIdx.toNat]? = some maxVal ∧
      ∀ k, k < values.length →
        (∀ j, j < values.length → j ≠ k → values.getD j 0 < values.getD k 0) →
        maxIdx = (k : Int) := by
  obtain ⟨mv, k, heq, ⟨hk, hmax, hleast⟩, hval⟩ := argmax_eq values hne api
  simp only at hmax hleast
  have hget : values[k]? = some mv := by
    rw [← hval]; simp [List.getD, List.getElem?_eq_getElem hk]
  refine ⟨mv, k, _, heq, by omega, by omega, List.getElem?_mem hget, ?_, ?_, ?_⟩
  · intro v hv
    obtain ⟨j, hj, hjv⟩ := List.getElem_of_mem hv
    have := hmax j hj
    rw [hval] at this
    simpa [List.getD, List.getElem?_eq_getElem hj, hjv] using this
  · simpa using hget
  · intro k2 hk2 huniq
    by_cases hkk : k = k2
    · rw [hkk]
    · have h1 := huniq k hk hkk
      have h2 := hmax k2 hk2
      omega

theorem argmax_correct_witness :
    [3, 9, -2, 9] ≠ ([] : List Int) ∧
      ∃ maxVal maxIdx api2,
        Define.argmax [3, 9, -2, 9] API.empty = .ok (maxVal, maxIdx, api2) ∧
        0 ≤ maxIdx ∧ maxIdx < (([3, 9, -2, 9] : List Int).length : Int) ∧
        maxVal ∈ ([3, 9, -2, 9] : List Int) ∧ (∀ v ∈ ([3, 9, -2, 9] : List Int), v ≤ maxVal) ∧
        ([3, 9, -2, 9] : List Int)[maxIdx.toNat]? = some maxVal ∧
        ∀ k, k < ([3, 9, -2, 9] : List Int).length →
          (∀ j, j < ([3, 9, -2, 9] : List Int).length → j ≠ k →
            ([3, 9, -2, 9] : List Int).getD j 0 < ([3, 9, -2, 9] : List Int).getD k 0) →
          maxIdx = (k : Int) :=
  ⟨by decide, argmax_correct [3, 9, -2, 9] API.empty (by decide)⟩

/-- C4 (argmax tie-breaking): on every non-empty vector the index returned by the argmax
fold is the smallest index at which the maximum occurs: the maximum stands at that index,
every earlier element is strictly smaller, and every index holding the maximum is at least
the returned one.  In particular `argmax([5,5,3])` returns index 0 and `argmax([3,5,5])`
returns index 1. -/
theorem argmax_returns_first_maximum :
    (∀ (values : List Int) (api : API), values ≠ [] →
      ∃ (maxVal : Int) (k : Nat) (api2 : API),
        Define.argmax values api = .ok (maxVal, (k : Int), api2) ∧
        values[k]? = some maxVal ∧ (∀ v ∈ values, v ≤ maxVal) ∧
        (∀ j v, j < k → values[j]? = some v → v < maxVal) ∧
        (∀ j, values[j]? = some maxVal → k ≤ j)) ∧
    (∀ api : API, (Define.argmax [5, 5, 3] api).map (fun r => r.2.1) = .ok 0) ∧
    (∀ api : API, (Define.argmax [3, 5, 5] api).map (fun r => r.2.1) = .ok 1) := by
  refine ⟨fun values api hne => ?_, fun api => rfl, fun api => rfl⟩
  obtain ⟨mv, k, heq, ⟨hk, hmax, hleast⟩, hval⟩ := argmax_eq values hne api
  simp only at hmax hleast
  have hget : values[k]? = some mv := by
    rw [← hval]; simp [List.getD, List.getElem?_eq_getElem hk]
  have hearlier : ∀ j v, j < k → values[j]? = some v → v < mv := by
    intro j v hj hjv
    have := hleast j hj
    rw [hval] at this
    simpa [List.getD, hjv] using this
  refine ⟨mv, k, _, heq, hget, ?_, hearlier, ?_⟩
  · intro v hv
    obtain ⟨j, hj, hjv⟩ := List.getElem_of_mem hv
    have := hmax j hj
    rw [hval] at this
    simpa [List.getD, List.getElem?_eq_getElem hj, hjv] using this
  · intro j hj
    by_contra hlt
    have := hearlier j mv (by omega) hj
    omega

theorem argmax_returns_first_maximum_witness :
    [3, 5, 5] ≠ ([] : List Int) ∧
      ∃ (maxVal : Int) (k : Nat) (api2 : API),
        Define.argmax [3, 5, 5] API.empty = .ok (maxVal, (k : Int), api2) ∧
        ([3, 5, 5] : List Int)[k]? = some maxVal ∧
        (∀ v ∈ ([3, 5, 5] : List Int), v ≤ maxVal) ∧
        (∀ j v, j < k → ([3, 5, 5] : List Int)[j]? = some v → v < maxVal) ∧
        (∀ j, ([3, 5, 5] : List Int)[j]? = some maxVal → k ≤ j) :=
  ⟨by decide, argmax_returns_first_maximum.1 [3, 5, 5] API.empty (by decide)⟩

/-- C5 (ReLU invariant): for a well-formed model and input the first loop of `Define`
completes with a layer output whose length is the neuron count `len(A[0])` and whose
entries are all non-negative. -/
theorem layer_output_length_and_nonneg (c : ProveModelCircuit) (api : API)
    (hwf : WellFormed c) :
    ∃ output api2, Define.layer c api = .ok (output, api2) ∧
      output.length = numberNeurons c ∧ ∀ v ∈ output, 0 ≤ v := by
  refine ⟨_, _, layer_eq c hwf.indexable api, by simp, fun v hv => ?_⟩
  obtain ⟨i, _, rfl⟩ := List.mem_map.mp hv
  exact relu_nonneg _

theorem layer_output_length_and_nonneg_witness :
    WellFormed (scenarioCircuit 0) ∧
      ∃ output api2, Define.layer (scenarioCircuit 0) API.empty = .ok (output, api2) ∧
        output.length = numberNeurons (scenarioCircuit 0) ∧ ∀ v ∈ output, 0 ≤ v :=
  ⟨by decide, layer_output_length_and_nonneg (scenarioCircuit 0) API.empty (by decide)⟩

/-- C6 (end-to-end scenario): for weights `[[1,0],[0,1]]`, biases `[0,0]` and input
`[3,-1]`, `Define` computes pre-activations 3 and -1, post-ReLU outputs `[3,0]`, argmax
value 3 at index 0; its assertion holds for expected output 0 and is violated for expected
output 1. -/
theorem end_to_end_scenario :
    (∀ api : API, (Define.affine (scenarioCircuit 0) 0 api).map Prod.fst = .ok 3) ∧
    (∀ api : API, (Define.affine (scenarioCircuit 0) 1 api).map Prod.fst = .ok (-1)) ∧
    Define (scenarioCircuit 0) API.empty =
      .ok { output := [3, 0], maxVal := 3, maxIdx := 0, api := ⟨4, 4, 4, 3, 1, true⟩,
            err := none } ∧
    Define (scenarioCircuit 1) API.empty =
      .ok { output := [3, 0], maxVal := 3, maxIdx := 0, api := ⟨4, 4, 4, 3, 1, false⟩,
            err := none } :=
  ⟨fun _ => rfl, fun _ => rfl, rfl, rfl⟩

/-- C7, as stated, fails: with zero neurons in layer 0, `Define` does not return an error
value; the run ends in the runtime panic of `output[0]`. -/
theorem empty_layer_panics_without_error_value :
    numberNeurons emptyLayerCircuit = 0 ∧
      Define emptyLayerCircuit API.empty = .error (.indexOutOfRange 0 0) ∧
      ¬ ∃ r, Define emptyLayerCircuit API.empty = .ok r ∧ r.err ≠ none := by
  refine ⟨rfl, rfl, ?_⟩
  rintro ⟨r, hr, _⟩
  have h : Define emptyLayerCircuit API.empty = .error (.indexOutOfRange 0 0) := rfl
  rw [h] at hr
  cases hr

/-- C7 (amended): when layer 0 exists and has zero neurons, `Define` produces no maximum
value and index and returns no error value: it aborts with the Go runtime panic
`index out of range [0] with length 0` raised by `output[0]`. -/
theorem Define_zero_neurons_panics (c : ProveModelCircuit) (api : API) (hA : c.A ≠ [])
    (hn : numberNeurons c = 0) :
    Define c api = .error (.indexOutOfRange 0 0) := by
  obtain ⟨A0, rest, hA0⟩ := List.exists_cons_of_ne_nil hA
  simp only [numberNeurons, hA0, List.getD_cons_zero] at hn
  have e1 : index c.A 0 = .ok A0 := index_eq_ok (by simp [hA0])
  simp only [Define, Define.layer, e1, hn, Define.layerLoop, bind, Except.bind]
  rfl

theorem Define_zero_neurons_panics_witness :
    emptyLayerCircuit.A ≠ [] ∧ numberNeurons emptyLayerCircuit = 0 ∧
      Define emptyLayerCircuit API.empty = .error (.indexOutOfRange 0 0) :=
  ⟨by decide, rfl, Define_zero_neurons_panics emptyLayerCircuit API.empty (by decide) rfl⟩

/-- C8, as stated, fails: on a dimensionally consistent two-layer model the composition of
both layers yields `[0, 3]` with argmax 1, whereas `Define` holds the output `[3, 0]` of
layer 0 alone and asserts index 0 (accepting the expected output 0). -/
theorem two_layer_model_asserts_layer_zero_argmax :
    chainLayers twoLayerCircuit.A twoLayerCircuit.Biases twoLayerCircuit.X = [0, 3] ∧
    (Define.argmax (chainLayers twoLayerCircuit.A twoLayerCircuit.Biases twoLayerCircuit.X)
      API.empty).map (fun r => r.2.1) = .ok 1 ∧
    (Define twoLayerCircuit API.empty).map (fun r => (r.output, r.maxIdx, r.api.satisfied)) =
      .ok ([3, 0], 0, true) :=
  ⟨rfl, rfl, rfl⟩

/-- C8 (amended): for every model whose layer 0 is well-formed and has at least one neuron,
whatever further layers it holds, `Define` applies the affine-ReLU layer to layer 0 only and
runs the argmax on that output: the index it asserts equal to `Expected` is the least
argmax of the output of layer 0.  For a model of exactly one layer this is the output of
the whole chain. -/
theorem Define_applies_layer_zero_only (c : ProveModelCircuit) (api : API)
    (hwf : WellFormed c) (hn : 0 < numberNeurons c) :
    ∃ (r : DefineResult) (k : Nat), Define c api = .ok r ∧
      r.output = applyLayer (c.A.getD 0 []) (c.Biases.getD 0 []) c.X ∧
      r.maxIdx = (k : Int) ∧
      IsLeastArgmax (fun j => r.output.getD j 0) r.output.length k ∧
      r.api.satisfied = (api.satisfied && decide (c.Expected = [(k : Int)])) ∧
      (c.A.length = 1 → c.Biases.length = 1 → r.output = chainLayers c.A c.Biases c.X) := by
  obtain ⟨k, hleast, heq⟩ := Define_eq c hwf.indexable hn api
  have hout : (List.range (numberNeurons c)).map (fun i => relu (pre c i)) =
      applyLayer (c.A.getD 0 []) (c.Biases.getD 0 []) c.X := rfl
  refine ⟨_, k, heq, hout, rfl, ?_, rfl, ?_⟩
  · simp only [List.length_map, List.length_range]
    exact hleast.congr (fun j hj => (getD_map_range _ _ j hj).symm)
  · intro h1 h2
    obtain ⟨A0, hA0⟩ := List.length_eq_one.mp h1
    obtain ⟨B0, hB0⟩ := List.length_eq_one.mp h2
    simp only [hout, hA0, hB0, List.getD_cons_zero, chainLayers]

theorem Define_applies_layer_zero_only_witness :
    (WellFormed twoLayerCircuit ∧ 0 < numberNeurons twoLayerCircuit ∧
      ∃ (r : DefineResult) (k : Nat), Define twoLayerCircuit API.empty = .ok r ∧
        r.output = applyLayer (twoLayerCircuit.A.getD 0 []) (twoLayerCircuit.Biases.getD 0 [])
          twoLayerCircuit.X ∧
        r.maxIdx = (k : Int) ∧
        IsLeastArgmax (fun j => r.output.getD j 0) r.output.length k ∧
        r.api.satisfied =
          (API.empty.satisfied && decide (twoLayerCircuit.Expected = [(k : Int)])) ∧
        (twoLayerCircuit.A.length = 1 → twoLayerCircuit.Biases.length = 1 →
          r.output = chainLayers twoLayerCircuit.A twoLayerCircuit.Biases twoLayerCircuit.X)) ∧
    (WellFormed (scenarioCircuit 0) ∧ 0 < numberNeurons (scenarioCircuit 0) ∧
      (scenarioCircuit 0).A.length = 1 ∧ (scenarioCircuit 0).Biases.length = 1 ∧
      ∃ r : DefineResult, Define (scenarioCircuit 0) API.empty = .ok r ∧
        r.output = chainLayers (scenarioCircuit 0).A (scenarioCircuit 0).Biases
          (scenarioCircuit 0).X) :=
  ⟨⟨by decide, by decide,
      Define_applies_layer_zero_only twoLayerCircuit API.empty (by decide) (by decide)⟩,
    by decide, by decide, rfl, rfl,
    (Define_applies_layer_zero_only (scenarioCircuit 0) API.empty (by decide) (by decide)).elim
      fun r hr => hr.elim fun _ h => ⟨r, h.1, h.2.2.2.2.2 rfl rfl⟩⟩

/-- C9, as stated, fails: a weights document whose layer has neuron rows of lengths 3 and 2
is converted without any error, into a weight matrix with rows of lengths 3 and 2. -/
theorem ragged_weights_are_converted :
    Ragged raggedWeights ∧ main.convertWeights raggedWeights = raggedWeights ∧
      shape (main.convertWeights raggedWeights) = [[3, 2]] := by
  refine ⟨⟨[[1.0, 2.0, 3.0], [4.0, 5.0]], ?_, [1.0, 2.0, 3.0], ?_, [4.0, 5.0], ?_, ?_⟩, rfl, rfl⟩
  · exact List.mem_singleton.mpr rfl
  · exact List.mem_cons_self _ _
  · exact List.mem_cons_of_mem _ (List.mem_singleton.mpr rfl)
  · decide

/-- C9 (amended): the conversion performed by `main` makes no shape check and has no
failure outcome: for every weights document, ragged or not, it produces a weight matrix
with exactly the nested shape of the document, every neuron row keeping its own length, and
the same holds for the biases. -/
theorem conversion_keeps_shape {F : Type} (weights : List (List (List F)))
    (biases : List (List F)) :
    shape (main.convertWeights weights) = shape weights ∧
      (Ragged weights → Ragged (main.convertWeights weights)) ∧
      (main.convertBiases biases).map List.length = biases.map List.length := by
  have hW : main.convertWeights weights = weights := by
    simp [main.convertWeights]
  have hB : main.convertBiases biases = biases := by
    simp [main.convertBiases]
  rw [hW, hB]
  exact ⟨rfl, id, rfl⟩

theorem conversion_keeps_shape_witness :
    Ragged raggedWeights ∧ Ragged (main.convertWeights raggedWeights) ∧
      shape (main.convertWeights raggedWeights) = shape raggedWeights :=
  have hr : Ragged raggedWeights :=
    ⟨[[1.0, 2.0, 3.0], [4.0, 5.0]], List.mem_singleton.mpr rfl, [1.0, 2.0, 3.0],
      List.mem_cons_self _ _, [4.0, 5.0], List.mem_cons_of_mem _ (List.mem_singleton.mpr rfl),
      by decide⟩
  ⟨hr, (conversion_keeps_shape raggedWeights []).2.1 hr,
    (conversion_keeps_shape raggedWeights []).1⟩

/-- C11, as stated, fails: on the scenario layer (2 neurons, 2 inputs) the first loop issues
4 calls of `api.Mul` and 4 of `api.Add`, 8 together, whereas
`numNeurons * (numInputs + 1)` is 6. -/
theorem scenario_layer_issues_eight_mul_add :
    Define.layer (scenarioCircuit 0) API.empty = .ok ([3, 0], ⟨4, 4, 2, 2, 0, true⟩) ∧
      (Define.layer (scenarioCircuit 0) API.empty).map (fun r => r.2.nMul + r.2.nAdd) =
        .ok 8 ∧
      numberNeurons (scenarioCircuit 0) * ((scenarioCircuit 0).X.length + 1) = 6 :=
  ⟨rfl, rfl, rfl⟩

/-- C11 (amended): for every layer with `numNeurons` neurons and `numInputs` inputs, the
first loop of `Define` issues exactly `numNeurons * numInputs` calls of `api.Mul` and
`numNeurons * numInputs` calls of `api.Add` (`2 * numNeurons * numInputs` together), and
exactly `numNeurons` comparison-and-select pairs: `numNeurons` calls of `cmp.IsLess` and
`numNeurons` of `api.Select`; no equality is asserted. -/
theorem layer_operation_count (c : ProveModelCircuit) (api : API) (h : Indexable c) :
    ∃ output api2, Define.layer c api = .ok (output, api2) ∧
      api2.nMul = api.nMul + numberNeurons c * c.X.length ∧
      api2.nAdd = api.nAdd + numberNeurons c * c.X.length ∧
      api2.nMul + api2.nAdd = api.nMul + api.nAdd + 2 * numberNeurons c * c.X.length ∧
      api2.nIsLess = api.nIsLess + numberNeurons c ∧
      api2.nSelect = api.nSelect + numberNeurons c ∧
      api2.nAssert = api.nAssert := by
  refine ⟨_, _, layer_eq c h api, rfl, rfl, ?_, rfl, rfl, rfl⟩
  simp only [API.issued]
  ring

theorem layer_operation_count_witness :
    Indexable (scenarioCircuit 0) ∧
      ∃ output api2, Define.layer (scenarioCircuit 0) API.empty = .ok (output, api2) ∧
        api2.nMul = API.empty.nMul +
          numberNeurons (scenarioCircuit 0) * (scenarioCircuit 0).X.length ∧
        api2.nAdd = API.empty.nAdd +
          numberNeurons (scenarioCircuit 0) * (scenarioCircuit 0).X.length ∧
        api2.nMul + api2.nAdd = API.empty.nMul + API.empty.nAdd +
          2 * numberNeurons (scenarioCircuit 0) * (scenarioCircuit 0).X.length ∧
        api2.nIsLess = API.empty.nIsLess + numberNeurons (scenarioCircuit 0) ∧
        api2.nSelect = API.empty.nSelect + numberNeurons (scenarioCircuit 0) ∧
        api2.nAssert = API.empty.nAssert :=
  ⟨by decide, layer_operation_count (scenarioCircuit 0) API.empty (by decide)⟩

/-- C12 (argmax constraint count): on every vector of `n >= 1` values the argmax loop of
`Define` completes having issued exactly `n - 1` comparisons (`cmp.IsLess`) and exactly
`2 (n - 1)` selects (`api.Select`), and nothing else. -/
theorem argmax_operation_count (values : List Int) (api : API) (hn : 1 ≤ values.length) :
    ∃ maxVal maxIdx api2, Define.argmax values api = .ok (maxVal, maxIdx, api2) ∧
      api2.nIsLess = api.nIsLess + (values.length - 1) ∧
      api2.nSelect = api.nSelect + 2 * (values.length - 1) ∧
      api2.nAdd = api.nAdd ∧ api2.nMul = api.nMul ∧ api2.nAssert = api.nAssert := by
  have hne : values ≠ [] := List.length_pos.mp hn
  obtain ⟨mv, k, heq, _, _⟩ := argmax_eq values hne api
  exact ⟨mv, k, _, heq, rfl, rfl, rfl, rfl, rfl⟩

theorem argmax_operation_count_witness :
    1 ≤ ([3, 9, -2, 9] : List Int).length ∧
      ∃ maxVal maxIdx api2,
        Define.argmax [3, 9, -2, 9] API.empty = .ok (maxVal, maxIdx, api2) ∧
        api2.nIsLess = API.empty.nIsLess + (([3, 9, -2, 9] : List Int).length - 1) ∧
        api2.nSelect = API.empty.nSelect + 2 * (([3, 9, -2, 9] : List Int).length - 1) ∧
        api2.nAdd = API.empty.nAdd ∧ api2.nMul = API.empty.nMul ∧
        api2.nAssert = API.empty.nAssert :=
  ⟨by decide, argmax_operation_count [3, 9, -2, 9] API.empty (by decide)⟩

/-- C13 (index safety): for every circuit with a layer 0 in `A` and in `Biases`, at least
one neuron in `A[0]`, `len(Biases[0]) >= len(A[0])` and every row of `A[0]` of length
`>= len(X)`, no slice index evaluated by `Define` is out of range: the run ends without a
panic, having made its final assertion, and returns `nil`. -/
theorem Define_index_safe (c : ProveModelCircuit) (api : API) (h : Indexable c)
    (hn : 0 < numberNeurons c) :
    ∃ r, Define c api = .ok r ∧ r.api.nAssert = api.nAssert + 1 ∧ r.err = none := by
  obtain ⟨k, _, heq⟩ := Define_eq c h hn api
  exact ⟨_, heq, rfl, rfl⟩

theorem Define_index_safe_witness :
    Indexable surplusCircuit ∧ 0 < numberNeurons surplusCircuit ∧
      ∃ r, Define surplusCircuit API.empty = .ok r ∧
        r.api.nAssert = API.empty.nAssert + 1 ∧ r.err = none :=
  ⟨by decide, by decide, Define_index_safe surplusCircuit API.empty (by decide) (by decide)⟩

/-- C14 (ReLU preserves the argmax of a positive maximum): for a well-formed layer and
input in which some neuron has a strictly positive pre-activation, `Define` completes with
`maxIdx` the least index attaining the maximum of the pre-activations and `maxVal` that
maximum pre-activation. -/
theorem relu_keeps_argmax_of_positive_maximum (c : ProveModelCircuit) (api : API)
    (hwf : WellFormed c) (hpos : ∃ i, i < numberNeurons c ∧ 0 < pre c i) :
    ∃ (r : DefineResult) (k : Nat), Define c api = .ok r ∧ r.maxIdx = (k : Int) ∧
      IsLeastArgmax (pre c) (numberNeurons c) k ∧ r.maxVal = pre c k := by
  obtain ⟨i0, hi0, hp0⟩ := hpos
  obtain ⟨k, ⟨hk, hmax, hleast⟩, heq⟩ := Define_eq c hwf.indexable (by omega) api
  simp only at hmax hleast
  have hkpos : 0 < pre c k := by
    have := hmax i0 hi0
    simp only [relu_eq_ite] at this
    split_ifs at this <;> omega
  have hrelu : relu (pre c k) = pre c k := by
    rw [relu_eq_ite]; simp [hkpos.le]
  refine ⟨_, k, heq, rfl, ⟨hk, fun j hj => ?_, fun j hj => ?_⟩, hrelu⟩
  · have := hmax j hj
    rw [hrelu] at this
    simp only [relu_eq_ite] at this
    split_ifs at this <;> omega
  · have := hleast j hj
    rw [hrelu] at this
    simp only [relu_eq_ite] at this
    split_ifs at this <;> omega

theorem relu_keeps_argmax_of_positive_maximum_witness :
    WellFormed tieCircuit ∧ (∃ i, i < numberNeurons tieCircuit ∧ 0 < pre tieCircuit i) ∧
      ∃ (r : DefineResult) (k : Nat), Define tieCircuit API.empty = .ok r ∧
        r.maxIdx = (k : Int) ∧
        IsLeastArgmax (pre tieCircuit) (numberNeurons tieCircuit) k ∧
        r.maxVal = pre tieCircuit k :=
  ⟨by decide, ⟨1, by decide, by decide⟩,
    relu_keeps_argmax_of_positive_maximum tieCircuit API.empty (by decide)
      ⟨1, by decide, by decide⟩⟩

/-- C15, as stated, fails: a well-formed layer without any neuron has no positive
pre-activation, yet `Define` computes no `maxVal` or `maxIdx` for it and makes no
assertion; the run ends in the runtime panic of `output[0]`. -/
theorem nonpositive_layer_without_neuron_panics :
    WellFormed emptyLayerCircuit ∧
      (∀ i, i < numberNeurons emptyLayerCircuit → pre emptyLayerCircuit i ≤ 0) ∧
      Define emptyLayerCircuit API.empty = .error (.indexOutOfRange 0 0) :=
  ⟨by decide, by decide, rfl⟩

/-- C15 (amended, collapse to class 0): for a well-formed layer with at least one neuron
and an input for which every pre-activation is `<= 0`, `Define` computes a layer output of
all zeros, `maxVal = 0` and `maxIdx = 0`, so its equality assertion holds exactly when
`Expected` is 0, whichever neuron had the largest pre-activation. -/
theorem all_nonpositive_collapses_to_class_zero (c : ProveModelCircuit)
    (hwf : WellFormed c) (hn : 0 < numberNeurons c)
    (hle : ∀ i, i < numberNeurons c → pre c i ≤ 0) :
    ∃ r, Define c API.empty = .ok r ∧ r.output = List.replicate (numberNeurons c) 0 ∧
      r.maxVal = 0 ∧ r.maxIdx = 0 ∧ (r.api.satisfied = true ↔ c.Expected = [0]) := by
  obtain ⟨k, ⟨hk, _, hleast⟩, heq⟩ := Define_eq c hwf.indexable hn API.empty
  simp only at hleast
  have hzero : ∀ j, j < numberNeurons c → relu (pre c j) = 0 := by
    intro j hj
    have := hle j hj
    rw [relu_eq_ite]
    split_ifs <;> omega
  have hk0 : k = 0 := by
    by_contra hne
    have := hleast 0 (by omega)
    rw [hzero 0 hn, hzero k hk] at this
    omega
  subst hk0
  refine ⟨_, heq, ?_, hzero 0 hn, rfl, ?_⟩
  · refine List.eq_replicate_iff.mpr ⟨by simp, fun b hb => ?_⟩
    obtain ⟨j, hj, rfl⟩ := List.mem_map.mp hb
    exact hzero j (List.mem_range.mp hj)
  · simp [API.AssertIsEqual, API.issued, API.empty]

theorem all_nonpositive_collapses_to_class_zero_witness :
    WellFormed collapseCircuit ∧ 0 < numberNeurons collapseCircuit ∧
      (∀ i, i < numberNeurons collapseCircuit → pre collapseCircuit i ≤ 0) ∧
      pre collapseCircuit 0 < pre collapseCircuit 1 ∧
      ∃ r, Define collapseCircuit API.empty = .ok r ∧
        r.output = List.replicate (numberNeurons collapseCircuit) 0 ∧
        r.maxVal = 0 ∧ r.maxIdx = 0 ∧
        (r.api.satisfied = true ↔ collapseCircuit.Expected = [0]) :=
  ⟨by decide, by decide, by decide, by decide,
    all_nonpositive_collapses_to_class_zero collapseCircuit (by decide) (by decide)
      (by decide)⟩

/-- C16 (excess weights and extra layers are ignored): for any two circuits with the same
`X` and `Expected`, the same entries of `Biases[0]` below the neuron count and the same
first `len(X)` entries in every row of `A[0]`, `Define` has the same outcome, whatever the
circuits hold at columns `>= len(X)`, in bias entries beyond the neuron count and in the
layers `A[k]`, `Biases[k]` for `k >= 1`.  In particular, when one of them has shapes that
keep every index in range and at least one neuron, both runs complete without error, with
the same `maxVal`, the same `maxIdx` and the same assertion outcome. -/
theorem Define_ignores_surplus_data (c1 c2 : ProveModelCircuit) (api : API)
    (h : AgreeOnUsed c1 c2) :
    Define c1 api = Define c2 api ∧
      (Indexable c1 → 0 < numberNeurons c1 →
        ∃ r1 r2, Define c1 api = .ok r1 ∧ Define c2 api = .ok r2 ∧
          r1.maxVal = r2.maxVal ∧ r1.maxIdx = r2.maxIdx ∧
          r1.api.satisfied = r2.api.satisfied) := by
  have heq := Define_congr c1 c2 h api
  refine ⟨heq, fun h1 hn => ?_⟩
  obtain ⟨k, _, hk⟩ := Define_eq c1 h1 hn api
  exact ⟨_, _, hk, heq ▸ hk, rfl, rfl, rfl⟩

theorem Define_ignores_surplus_data_witness :
    AgreeOnUsed (scenarioCircuit 0) surplusCircuit ∧ scenarioCircuit 0 ≠ surplusCircuit ∧
      Indexable (scenarioCircuit 0) ∧ 0 < numberNeurons (scenarioCircuit 0) ∧
      Define (scenarioCircuit 0) API.empty = Define surplusCircuit API.empty ∧
      ∃ r1 r2, Define (scenarioCircuit 0) API.empty = .ok r1 ∧
        Define surplusCircuit API.empty = .ok r2 ∧
        r1.maxVal = r2.maxVal ∧ r1.maxIdx = r2.maxIdx ∧
        r1.api.satisfied = r2.api.satisfied :=
  ⟨by decide, by decide, by decide, by decide,
    (Define_ignores_surplus_data (scenarioCircuit 0) surplusCircuit API.empty (by decide)).1,
    (Define_ignores_surplus_data (scenarioCircuit 0) surplusCircuit API.empty (by decide)).2
      (by decide) (by decide)⟩

end ProofML
